import Mathlib

/-!
Shallow embedding of the numerical core of the Loops_Detector repository
(declooptor/utils.py): iterative SCN normalization (scn_func), genomic
distance law (distance_law), speckle filtering (despeckles), peak picking
(picker), detrending (detrend) and sliding cross-correlation (xcorr2).

Modelling conventions:
* A dense two-dimensional NumPy array is a `Mat`: explicit dimensions plus a
  total entry function (entries outside the stated dimensions are junk and
  never relevant; all scans below range over the stated dimensions, exactly
  as the Python loops and vectorized slices do).
* Machine floats are modelled by exact rationals.  NumPy's NaN from 0/0
  followed by the code's explicit `A[np.isnan(A)] = 0` replacement is
  modelled by `safediv` (division that yields 0 when the denominator is 0);
  this is faithful on the non-negative matrices the pipeline is specified
  for, where a zero denominator forces a zero numerator.
* `numpy.std` (population standard deviation) involves a square root, which
  leaves ℚ; it is passed as an explicit function parameter `std` to the
  functions that call it, keeping every call site structurally identical to
  the source.  Likewise `scipy.signal.savgol_filter` (an external library
  routine) is a parameter `savgol` of `detrend`.
* `scipy.ndimage.measurements.label` (external library) is modelled by an
  executable 4-connectivity connected-component labelling routine that
  assigns labels 1.. in raster order of first discovery, matching the
  documented behaviour used by `picker`.
-/

set_option maxRecDepth 10000

/-- Dense 2D array: row count, column count, entry function. -/
structure Mat where
  m : ℕ
  n : ℕ
  f : ℕ → ℕ → ℚ

/-- Division as used after the code's NaN replacement: 0/0 stands for the
NaN that `A[np.isnan(A)] = 0.0` immediately turns into 0. -/
def safediv (x s : ℚ) : ℚ := if s = 0 then 0 else x / s

/-- Sum of a full row `A[i,]` (used by scn_func's activity test). -/
def rowSumFull (A : Mat) (i : ℕ) : ℚ := ((List.range A.n).map (fun j => A.f i j)).sum

/-- Column sum `matrix.sum(axis=0)[j]` (sum over rows). -/
def colSum (A : Mat) (j : ℕ) : ℚ := ((List.range A.m).map (fun i => A.f i j)).sum

/-- The vector `matrix.sum(axis=0)` of all column sums. -/
def colSumsList (A : Mat) : List ℚ := (List.range A.n).map (fun j => colSum A j)

/-- Insertion of a rational into a sorted list (helper for `npMedian`). -/
def insertSorted (x : ℚ) : List ℚ → List ℚ
  | [] => [x]
  | y :: ys => if x ≤ y then x :: y :: ys else y :: insertSorted x ys

/-- Insertion sort (helper for `npMedian`; `numpy.median` sorts its input). -/
def sortQ : List ℚ → List ℚ
  | [] => []
  | x :: xs => insertSorted x (sortQ xs)

/-- The NumPy median: middle element of the sorted data for odd length,
average of the two middle elements for even length. -/
def npMedian (l : List ℚ) : ℚ :=
  let s := sortQ l
  if l.length % 2 = 1 then s.getD (l.length / 2) 0
  else (s.getD (l.length / 2 - 1) 0 + s.getD (l.length / 2) 0) / 2

/-- The NumPy mean of a 1D array. -/
def npMean (l : List ℚ) : ℚ := l.sum / (l.length : ℚ)

/-! ## scn_func: iterative SCN normalization -/

/-- The activity vector `keep` of scn_func: row `i` is active when its full
row sum strictly exceeds the threshold.  Computed once, before iterating. -/
def scnActive (A : Mat) (t : ℚ) : ℕ → Bool := fun i => decide (t < rowSumFull A i)

/-- Sum of column `c` restricted to active rows, `np.sum(A[indices1[0], i])`. -/
def activeColSum (A : Mat) (act : ℕ → Bool) (c : ℕ) : ℚ :=
  (((List.range A.m).filter (fun r => act r)).map (fun r => A.f r c)).sum

/-- Sum of row `r` restricted to active indices, `np.sum(A[i, indices1[0]])`. -/
def activeRowSum (A : Mat) (act : ℕ → Bool) (r : ℕ) : ℚ :=
  (((List.range A.m).filter (fun c => act c)).map (fun c => A.f r c)).sum

/-- One column pass of scn_func: every column `i < n1` has its active-row
entries divided by the active-restricted column sum and its inactive-row
entries zeroed; NaNs (0/0) are replaced by 0 right after the pass. -/
def colStep (act : ℕ → Bool) (A : Mat) : Mat :=
  ⟨A.m, A.n, fun r c =>
    if r < A.m ∧ c < A.m then
      (if act r then safediv (A.f r c) (activeColSum A act c) else 0)
    else A.f r c⟩

/-- One row pass of scn_func (the symmetric operation over rows, applied to
the matrix already updated by the column pass). -/
def rowStep (act : ℕ → Bool) (A : Mat) : Mat :=
  ⟨A.m, A.n, fun r c =>
    if r < A.m ∧ c < A.m then
      (if act c then safediv (A.f r c) (activeRowSum A act r) else 0)
    else A.f r c⟩

/-- The iteration loop of scn_func: each of the `n_iterations` rounds does a
column pass followed by a row pass. -/
def scnLoop (act : ℕ → Bool) : ℕ → Mat → Mat
  | 0, A => A
  | k + 1, A => scnLoop act k (rowStep act (colStep act A))

/-- scn_func: sequential component normalization with a fixed count of 10
iterations; the active set is decided once from the input row sums. -/
def scn_func (A : Mat) (t : ℚ) : Mat := scnLoop (scnActive A t) 10 A

/-! ## distance_law -/

/-- The values of `np.diag(matrix, -d)`: entries `matrix[i + d, i]`. -/
def diagLower (M : Mat) (d : ℕ) : List ℚ :=
  (List.range (M.m - d)).map (fun i => M.f (i + d) i)

/-- distance_law: entry `d` is the mean over the d-th lower diagonal. -/
def distance_law (M : Mat) : List ℚ :=
  (List.range M.m).map (fun d => npMean (diagLower M d))

/-! ## despeckles -/

/-- Pointwise in-place assignment `A[r, c] = v`. -/
def matUpdate (A : Mat) (r c : ℕ) (v : ℚ) : Mat :=
  ⟨A.m, A.n, fun i j => if i = r ∧ j = c then v else A.f i j⟩

/-- The values of the upper diagonal at offset `nw`, exactly as the first
pass of despeckles collects them: `A[j, j + nw]` for `j + nw < n`. -/
def diagSlice (A : Mat) (nw : ℕ) : List ℚ :=
  (List.range (A.m - nw)).map (fun j => A.f j (j + nw))

/-- The clipping cutoff of despeckles: `np.median(g) + th2 * np.std(g)`
(`std` is the population standard deviation, passed as a parameter). -/
def despeckleCutoff (std : List ℚ → ℚ) (th2 : ℚ) (g : List ℚ) : ℚ :=
  npMedian g + th2 * std g

/-- One body of the second (clipping) pass of despeckles for a fixed
`(nw, j)`: test-and-zero at `(j, j + nw)` when `j + nw < n`, then at
`(j, j - nw)` when `j - nw ≥ 0`, updating the matrix, the speckle counter
and the outlier list.  The cutoffs come from the fixed `dist`. -/
def despeckleStep (dist : ℕ → List ℚ) (std : List ℚ → ℚ) (th2 : ℚ) (n : ℕ)
    (st : Mat × ℕ × List (ℕ × ℕ)) (p : ℕ × ℕ) : Mat × ℕ × List (ℕ × ℕ) :=
  let cut := despeckleCutoff std th2 (dist p.1)
  let st1 :=
    if p.2 + p.1 < n then
      (if cut < st.1.f p.2 (p.2 + p.1) then
        (matUpdate st.1 p.2 (p.2 + p.1) 0, st.2.1 + 1, st.2.2 ++ [(p.2, p.2 + p.1)])
      else st)
    else st
  if p.1 ≤ p.2 then
    (if cut < st1.1.f p.2 (p.2 - p.1) then
      (matUpdate st1.1 p.2 (p.2 - p.1) 0, st1.2.1 + 1, st1.2.2 ++ [(p.2, p.2 - p.1)])
    else st1)
  else st1

/-- The nested loop order of the second pass of despeckles: `nw` outer
(scales), `j` inner (along the chromosome). -/
def pairList (n : ℕ) : List (ℕ × ℕ) :=
  (List.range n).flatMap (fun nw => (List.range n).map (fun j => (nw, j)))

/-- Result of despeckles, positionally matching the Python return tuple
`(dist, A, n_speckles, outlier)`. -/
structure DespeckleResult where
  dist : ℕ → List ℚ
  mat : Mat
  n_speckles : ℕ
  outlier : List (ℕ × ℕ)

/-- despeckles: first pass collects the per-distance distributions from the
unmutated matrix; second pass clips every value strictly above the cutoff of
its distance's distribution, zeroing it and recording the coordinate. -/
def despeckles (std : List ℚ → ℚ) (A : Mat) (th2 : ℚ) : DespeckleResult :=
  let n := A.m
  let dist : ℕ → List ℚ := fun nw =>
    (List.range n).filterMap (fun j => if j + nw < n then some (A.f j (j + nw)) else none)
  let res := (pairList n).foldl (despeckleStep dist std th2 n) (A, 0, [])
  ⟨dist, res.1, res.2.1, res.2.2⟩

/-! ## xcorr2 -/

/-- Entries of the cross-correlation output may be the explicit undefined
marker NaN (`none`) on the border in centered mode. -/
structure OMat where
  m : ℕ
  n : ℕ
  f : ℕ → ℕ → Option ℚ

/-- The accumulated correlation value at offset `(r, c)`: the per-entry
reading of the loop `out += kernel[ki, kj] * signal[ki : .., kj : ..]`. -/
def corrAt (s k : Mat) (r c : ℕ) : ℚ :=
  ((List.range k.m).map (fun ki =>
    ((List.range k.n).map (fun kj => k.f ki kj * s.f (r + ki) (c + kj))).sum)).sum

/-- xcorr2: raises when the kernel exceeds the signal in either axis;
"valid" (non-centered) mode yields shape (Ms-Mk+1)×(Ns-Nk+1); centered mode
yields shape Ms×Ns with the computed values placed at the kernel center
offset `((Mk-1)//2, (Nk-1)//2)` and NaN (`none`) left on the border. -/
def xcorr2 (s k : Mat) (centered_p : Bool) : Except String OMat :=
  if k.m > s.m ∨ k.n > s.n then Except.error "cannot have kernel bigger than signal"
  else if centered_p = false then
    Except.ok ⟨s.m - k.m + 1, s.n - k.n + 1, fun r c => some (corrAt s k r c)⟩
  else
    Except.ok ⟨s.m, s.n, fun i j =>
      if (k.m - 1) / 2 ≤ i ∧ i < s.m - (k.m - 1 - (k.m - 1) / 2) ∧
         (k.n - 1) / 2 ≤ j ∧ j < s.n - (k.n - 1 - (k.n - 1) / 2) then
        some (corrAt s k (i - (k.m - 1) / 2) (j - (k.n - 1) / 2))
      else none⟩

/-- The successful result of xcorr2 (the source raises on dimension
mismatch; under the theorems' hypotheses the error branch is unreachable). -/
def xcorrOk (s k : Mat) (centered_p : Bool) : OMat :=
  match xcorr2 s k centered_p with
  | Except.ok o => o
  | Except.error _ => ⟨0, 0, fun _ _ => none⟩

/-! ## picker -/

/-- All pixel coordinates of an `m × n` array in raster (row-major) order;
this is the order in which `np.where` reports coordinates. -/
def scanPixels (m n : ℕ) : List (ℕ × ℕ) :=
  (List.range m).flatMap (fun i => (List.range n).map (fun j => (i, j)))

/-- `raw_ijs`: the coordinates whose probability strictly exceeds the
threshold, in raster order. -/
def rawCandidates (p : Mat) (t : ℚ) : List (ℕ × ℕ) :=
  (scanPixels p.m p.n).filter (fun q => decide (t < p.f q.1 q.2))

/-- Maximum of a list of naturals (Python `max` over a nonempty list). -/
def listMax (l : List ℕ) : ℕ := l.foldl max 0

/-- The 4-neighbours of a pixel (clipped at the zero boundary). -/
def neighbors (q : ℕ × ℕ) : List (ℕ × ℕ) :=
  [(q.1 + 1, q.2), (q.1, q.2 + 1)] ++
    (if 0 < q.1 then [(q.1 - 1, q.2)] else []) ++
    (if 0 < q.2 then [(q.1, q.2 - 1)] else [])

/-- Breadth-first closure over foreground pixels: grows `vis` by the
not-yet-visited foreground neighbours of the frontier, for `fuel` rounds.
Models the flood step of `scipy.ndimage.measurements.label` with the
default 4-connectivity structuring element. -/
def bfs (good : ℕ × ℕ → Bool) : ℕ → List (ℕ × ℕ) → List (ℕ × ℕ) → List (ℕ × ℕ)
  | 0, _, vis => vis
  | fuel + 1, frontier, vis =>
    let nxt := (frontier.flatMap neighbors).filter
      (fun q => good q && !(vis.contains q))
    bfs good fuel nxt (vis ++ nxt)

/-- The connected components of the foreground, in raster order of their
first pixel: scanning pixels in raster order, each foreground pixel not yet
in a component seeds a new component (its BFS closure). -/
def buildComps (good : ℕ × ℕ → Bool) (fuel : ℕ) (pixels : List (ℕ × ℕ)) :
    List (List (ℕ × ℕ)) :=
  pixels.foldl (fun comps q =>
    if good q && !(comps.any (fun comp => comp.contains q)) then
      comps ++ [bfs good fuel [q] [q]]
    else comps) []

/-- The label of a pixel: 1-based index of the first component containing
it, 0 for background (the value `labelled_mat[i, j]`). -/
def labelOf (comps : List (List (ℕ × ℕ))) (q : ℕ × ℕ) : ℕ :=
  match comps with
  | [] => 0
  | c :: rest =>
    if q ∈ c then 1
    else match labelOf rest q with
      | 0 => 0
      | r + 1 => r + 2

/-- Index of the first maximum of a list (`np.argmax`). -/
def argmaxIdx : List ℚ → ℕ
  | [] => 0
  | [_] => 0
  | v :: w :: rest =>
    if (w :: rest).getD (argmaxIdx (w :: rest)) 0 ≤ v then 0
    else argmaxIdx (w :: rest) + 1

/-- Result of picker: either the explicit "NA" sentinel (no raw candidate
at all) or the list of representative coordinates, one per retained blob. -/
inductive PickResult where
  | NA : PickResult
  | coords : List (ℕ × ℕ) → PickResult
deriving DecidableEq

instance {e a : Type} [DecidableEq e] [DecidableEq a] : DecidableEq (Except e a) := fun x y =>
  match x, y with
  | Except.ok u, Except.ok v =>
    if h : u = v then isTrue (by rw [h]) else isFalse (by simp [h])
  | Except.error u, Except.error v =>
    if h : u = v then isTrue (by rw [h]) else isFalse (by simp [h])
  | Except.ok _, Except.error _ => isFalse (by simp)
  | Except.error _, Except.ok _ => isFalse (by simp)

/-- The boolean candidate mask `candidate_p`: `True` exactly at the raw
candidate coordinates, anchored at the origin (no bounding-box offset). -/
def pickerGood (p : Mat) (thres : ℚ) : ℕ × ℕ → Bool :=
  fun q => decide (q ∈ rawCandidates p thres)

/-- `I`: maximum candidate row, `max(raw_ijs[:, 0])`. -/
def pickerI (p : Mat) (thres : ℚ) : ℕ :=
  listMax ((rawCandidates p thres).map (fun q => q.1))

/-- `J`: maximum candidate column, `max(raw_ijs[:, 1])`. -/
def pickerJ (p : Mat) (thres : ℚ) : ℕ :=
  listMax ((rawCandidates p thres).map (fun q => q.2))

/-- The connected components of the candidate mask of shape
`(I + 1) × (J + 1)` (the result of `measurements.label(candidate_p)`:
component `ff` carries label `ff + 1`). -/
def pickerComps (p : Mat) (thres : ℚ) : List (List (ℕ × ℕ)) :=
  buildComps (pickerGood p thres) ((pickerI p thres + 1) * (pickerJ p thres + 1))
    (scanPixels (pickerI p thres + 1) (pickerJ p thres + 1))

/-- One round of the feature loop of picker: `none` when component `ff` is
removed (no candidate pixel under its label, or exactly one pixel),
otherwise the first maximum-probability pixel among its coordinates
(`label_ijs[np.argmax(probas[label_ijs])]`). -/
def pickerRow (p : Mat) (thres : ℚ) (ff : ℕ) : Option (ℕ × ℕ) :=
  let labelCoords := (scanPixels (pickerI p thres + 1) (pickerJ p thres + 1)).filter
    (fun q => decide (labelOf (pickerComps p thres) q = ff + 1))
  if (labelCoords.filter (fun q => pickerGood p thres q)).length = 0 then none
  else if labelCoords.length = 1 then none
  else some (labelCoords.getD
    (argmaxIdx (labelCoords.map (fun q => p.f q.1 q.2))) (0, 0))

/-- The per-feature rows `ijs` before the removed rows are dropped. -/
def pickerRows (p : Mat) (thres : ℚ) : List (Option (ℕ × ℕ)) :=
  (List.range (pickerComps p thres).length).map (pickerRow p thres)

/-- picker: validates that all probabilities lie in [0, 1], thresholds,
returns the "NA" sentinel when no pixel strictly exceeds the threshold, and
otherwise labels the origin-anchored candidate mask of shape
`(max row + 1) × (max col + 1)`, discards empty or singleton components,
and keeps the first maximum-probability pixel of each surviving blob. -/
def picker (p : Mat) (thres : ℚ) : Except String PickResult :=
  if (scanPixels p.m p.n).any (fun q => decide (1 < p.f q.1 q.2)) then
    Except.error "probas must be <= 1.0"
  else if (scanPixels p.m p.n).any (fun q => decide (p.f q.1 q.2 < 0)) then
    Except.error "probas must be >= 0.0"
  else if 0 < (rawCandidates p thres).length then
    Except.ok (PickResult.coords ((pickerRows p thres).filterMap id))
  else Except.ok PickResult.NA

/-! ## detrend -/

/-- One entry of `matscn / distance_law_matrix` after the two NaN/negative
replacement passes of detrend, over exact rationals: 0/0 is NaN (replaced
by 1), a negative quotient or -inf is clamped to 1, and a +inf entry
(positive value divided by zero) is the only remaining non-finite value,
represented by `none`. -/
def detrendCell (x y : ℚ) : Option ℚ :=
  if y = 0 then
    (if x = 0 then some 1 else if x < 0 then some 1 else none)
  else
    (if x / y < 0 then some 1 else some (x / y))

/-- detrend: poor-bin threshold from the column sums of the input, SCN
normalization with that threshold, despeckling with multiplier 10, distance
law smoothed by `savgol` (the scipy Savitzky-Golay filter, window 17,
order 5, passed as a parameter), elementwise detrending, and finally the
rows then the columns of every poor bin are overwritten with the neutral
value 1.  (The code's `y[np.isnan(y)] = 0` pass is the identity here: over
ℚ the diagonal means of the despeckled matrix are always finite.)  Returns
the detrended matrix and the threshold. -/
def detrend (std : List ℚ → ℚ) (savgol : List ℚ → List ℚ) (M : Mat) : OMat × ℚ :=
  let n := M.m
  let threshold := npMedian (colSumsList M) - 2 * std (colSumsList M)
  let poor : ℕ → Bool := fun j => decide ((colSumsList M).getD j 0 ≤ threshold)
  let matscn := scn_func M threshold
  let despeckled := (despeckles std matscn 10).mat
  let ysav := savgol (distance_law despeckled)
  let base : ℕ → ℕ → Option ℚ := fun i j =>
    detrendCell (despeckled.f i j) (ysav.getD (Nat.dist i j) 0)
  let withRows : ℕ → ℕ → Option ℚ := fun i j => if poor i then some 1 else base i j
  (⟨n, n, fun i j => if poor j then some 1 else withRows i j⟩, threshold)

/-! ## General helper lemmas -/

theorem getD_map_range {α : Type} (f : ℕ → α) (n i : ℕ) (d : α) (h : i < n) :
    ((List.range n).map f).getD i d = f i := by
  rw [List.getD_eq_getElem?_getD, List.getElem?_map, List.getElem?_range h]; rfl

theorem getD_mem {α : Type} (l : List α) (n : ℕ) (d : α) (h : n < l.length) :
    l.getD n d ∈ l := by
  rw [List.getD_eq_getElem?_getD, List.getElem?_eq_getElem h]
  exact List.getElem_mem h

theorem mem_scanPixels (m n : ℕ) (q : ℕ × ℕ) :
    q ∈ scanPixels m n ↔ q.1 < m ∧ q.2 < n := by
  obtain ⟨i, j⟩ := q
  simp [scanPixels, List.mem_flatMap]

theorem sum_map_range_eq (f : ℕ → ℚ) (n : ℕ) :
    ((List.range n).map f).sum = ∑ i in Finset.range n, f i := by
  induction n with
  | zero => simp
  | succ k ih => rw [Finset.sum_range_succ, List.range_succ]; simp [ih]

theorem mem_rawCandidates (p : Mat) (t : ℚ) (q : ℕ × ℕ)
    (h : q ∈ rawCandidates p t) : q.1 < p.m ∧ q.2 < p.n ∧ t < p.f q.1 q.2 := by
  have h' := List.mem_filter.mp h
  have hq := (mem_scanPixels p.m p.n q).mp h'.1
  exact ⟨hq.1, hq.2, of_decide_eq_true h'.2⟩

/-! ## C1: detrend threshold and poor-bin neutralization -/

/-- The poor-bin test of detrend applied to bin `b` in range agrees with the
column-sum comparison. -/
theorem colSumsList_getD (M : Mat) (b : ℕ) (hb : b < M.n) :
    (colSumsList M).getD b 0 = colSum M b :=
  getD_map_range _ _ _ _ hb

/-- C1: for every square input matrix, detrend returns the threshold
median(column sums) − 2·std(column sums) as its second component, and every
bin whose column sum is at or below this threshold has its entire row and
its entire column in the returned matrix set to the neutral value 1. -/
theorem detrend_poor_bins (std : List ℚ → ℚ) (savgol : List ℚ → List ℚ) (M : Mat)
    (b j : ℕ) (hsq : M.n = M.m) (hb : b < M.m) (hj : j < M.m)
    (hpoor : colSum M b ≤ (detrend std savgol M).2) :
    (detrend std savgol M).2 = npMedian (colSumsList M) - 2 * std (colSumsList M) ∧
    (detrend std savgol M).1.f b j = some 1 ∧
    (detrend std savgol M).1.f j b = some 1 := by
  have hb' : b < M.n := hsq ▸ hb
  have hthr : (detrend std savgol M).2 =
      npMedian (colSumsList M) - 2 * std (colSumsList M) := rfl
  have hgd : (colSumsList M).getD b 0 ≤
      npMedian (colSumsList M) - 2 * std (colSumsList M) := by
    rw [colSumsList_getD M b hb']; exact hthr ▸ hpoor
  refine ⟨hthr, ?_, ?_⟩
  · show (if decide ((colSumsList M).getD j 0 ≤ _) then some 1
      else if decide ((colSumsList M).getD b 0 ≤ _) then some 1 else _) = some 1
    rw [decide_eq_true hgd]
    split <;> rfl
  · show (if decide ((colSumsList M).getD b 0 ≤ _) then some 1 else _) = some 1
    rw [decide_eq_true hgd]
    rfl

/-! ## C2: xcorr2 output shapes and NaN border -/

/-- C2: under compatible dimensions, valid (non-centered) mode yields shape
(Ms-Mk+1)×(Ns-Nk+1); centered mode yields shape Ms×Ns whose entry `(i, j)`
is NaN (`none`, never zero) exactly outside the central region
`[(Mk-1)//2, Ms-(Mk-1-(Mk-1)//2)) × [(Nk-1)//2, Ns-(Nk-1-(Nk-1)//2))`, and
inside it holds the computed correlation value. -/
theorem xcorr2_shapes_and_border (s k : Mat) (i j : ℕ)
    (hkm : 0 < k.m) (hkn : 0 < k.n) (hms : k.m ≤ s.m) (hns : k.n ≤ s.n)
    (hi : i < s.m) (hj : j < s.n) :
    (xcorrOk s k false).m = s.m - k.m + 1 ∧ (xcorrOk s k false).n = s.n - k.n + 1 ∧
    (xcorrOk s k true).m = s.m ∧ (xcorrOk s k true).n = s.n ∧
    ((xcorrOk s k true).f i j = none ↔
      ¬((k.m - 1) / 2 ≤ i ∧ i < s.m - (k.m - 1 - (k.m - 1) / 2) ∧
        (k.n - 1) / 2 ≤ j ∧ j < s.n - (k.n - 1 - (k.n - 1) / 2))) ∧
    (((k.m - 1) / 2 ≤ i ∧ i < s.m - (k.m - 1 - (k.m - 1) / 2) ∧
      (k.n - 1) / 2 ≤ j ∧ j < s.n - (k.n - 1 - (k.n - 1) / 2)) →
      (xcorrOk s k true).f i j =
        some (corrAt s k (i - (k.m - 1) / 2) (j - (k.n - 1) / 2))) := by
  have hg : ¬(k.m > s.m ∨ k.n > s.n) := by omega
  refine ⟨?_, ?_, ?_, ?_, ?_, ?_⟩
  · simp [xcorrOk, xcorr2, hg]
  · simp [xcorrOk, xcorr2, hg]
  · simp [xcorrOk, xcorr2, hg]
  · simp [xcorrOk, xcorr2, hg]
  · by_cases hreg : (k.m - 1) / 2 ≤ i ∧ i < s.m - (k.m - 1 - (k.m - 1) / 2) ∧
        (k.n - 1) / 2 ≤ j ∧ j < s.n - (k.n - 1 - (k.n - 1) / 2) <;>
      simp [xcorrOk, xcorr2, hg, hreg]
  · intro hreg
    simp [xcorrOk, xcorr2, hg, hreg]

/-! ## C6: input-contract failures -/

theorem any_scan_iff (p : Mat) (P : ℕ → ℕ → Prop) [∀ i j, Decidable (P i j)] :
    ((scanPixels p.m p.n).any (fun q => decide (P q.1 q.2)) = true) ↔
      ∃ i, i < p.m ∧ ∃ j, j < p.n ∧ P i j := by
  rw [List.any_eq_true]
  constructor
  · rintro ⟨q, hq, hPq⟩
    have h := (mem_scanPixels p.m p.n q).mp hq
    exact ⟨q.1, h.1, q.2, h.2, of_decide_eq_true hPq⟩
  · rintro ⟨i, hi, j, hj, hP⟩
    exact ⟨(i, j), (mem_scanPixels p.m p.n (i, j)).mpr ⟨hi, hj⟩, decide_eq_true hP⟩

/-- C6: xcorr2 fails (with the dimension-mismatch error) exactly when the
kernel exceeds the signal in some axis, and picker fails (with an
input-validation error) exactly when some in-range probability is above 1
or below 0; in both functions the check is the first statement, before any
accumulation or labelling. -/
theorem input_contract_errors (s k : Mat) (cp : Bool) (p : Mat) (t : ℚ) :
    ((∃ e, xcorr2 s k cp = Except.error e) ↔ (s.m < k.m ∨ s.n < k.n)) ∧
    ((∃ e, picker p t = Except.error e) ↔
      ((∃ i, i < p.m ∧ ∃ j, j < p.n ∧ 1 < p.f i j) ∨
       (∃ i, i < p.m ∧ ∃ j, j < p.n ∧ p.f i j < 0))) := by
  constructor
  · by_cases hg : k.m > s.m ∨ k.n > s.n
    · simp [xcorr2, hg]
    · have : ¬(s.m < k.m ∨ s.n < k.n) := by omega
      cases cp <;> simp [xcorr2, hg, this]
  · by_cases h1 : (scanPixels p.m p.n).any (fun q => decide (1 < p.f q.1 q.2)) = true
    · simp [picker, h1]
      exact Or.inl ((any_scan_iff p (fun i j => 1 < p.f i j)).mp h1)
    · by_cases h2 : (scanPixels p.m p.n).any (fun q => decide (p.f q.1 q.2 < 0)) = true
      · simp [picker, h1, h2]
        exact Or.inr ((any_scan_iff p (fun i j => p.f i j < 0)).mp h2)
      · have hn1 := (any_scan_iff p (fun i j => 1 < p.f i j)).not.mp h1
        have hn2 := (any_scan_iff p (fun i j => p.f i j < 0)).not.mp h2
        by_cases hraw : 0 < (rawCandidates p t).length <;>
          simp [picker, h1, h2, hraw, hn1, hn2]

/-! ## C7: the NA sentinel -/

theorem raw_pos_iff (p : Mat) (t : ℚ) :
    0 < (rawCandidates p t).length ↔ ∃ i, i < p.m ∧ ∃ j, j < p.n ∧ t < p.f i j := by
  rw [List.length_pos]
  constructor
  · intro hne
    obtain ⟨q, hq⟩ := List.exists_mem_of_ne_nil _ hne
    obtain ⟨h1, h2, h3⟩ := mem_rawCandidates p t q hq
    exact ⟨q.1, h1, q.2, h2, h3⟩
  · rintro ⟨i, hi, j, hj, ht⟩
    intro hnil
    have : (i, j) ∈ rawCandidates p t := by
      apply List.mem_filter.mpr
      exact ⟨(mem_scanPixels p.m p.n (i, j)).mpr ⟨hi, hj⟩, decide_eq_true ht⟩
    rw [hnil] at this
    exact absurd this (List.not_mem_nil _)

/-- C7: on a valid probability map, picker returns the explicit NA sentinel
exactly when no position strictly exceeds the threshold, and returns a
coordinate list (a different constructor of the result type, distinguishable
from the sentinel) only when some position strictly exceeds it. -/
theorem picker_na_sentinel (p : Mat) (t : ℚ)
    (hub : ∀ i, i < p.m → ∀ j, j < p.n → p.f i j ≤ 1)
    (hlb : ∀ i, i < p.m → ∀ j, j < p.n → 0 ≤ p.f i j) :
    (picker p t = Except.ok PickResult.NA ↔
      ¬∃ i, i < p.m ∧ ∃ j, j < p.n ∧ t < p.f i j) ∧
    ∀ l, picker p t = Except.ok (PickResult.coords l) →
      ∃ i, i < p.m ∧ ∃ j, j < p.n ∧ t < p.f i j := by
  have h1 : ¬((scanPixels p.m p.n).any (fun q => decide (1 < p.f q.1 q.2)) = true) := by
    rw [any_scan_iff p (fun i j => 1 < p.f i j)]
    rintro ⟨i, hi, j, hj, hgt⟩
    exact absurd (hub i hi j hj) (not_le.mpr hgt)
  have h2 : ¬((scanPixels p.m p.n).any (fun q => decide (p.f q.1 q.2 < 0)) = true) := by
    rw [any_scan_iff p (fun i j => p.f i j < 0)]
    rintro ⟨i, hi, j, hj, hlt⟩
    exact absurd (hlb i hi j hj) (not_le.mpr hlt)
  by_cases hraw : 0 < (rawCandidates p t).length
  · have hx := (raw_pos_iff p t).mp hraw
    constructor
    · simp [picker, h1, h2, hraw, hx]
    · intro l _
      exact hx
  · have hx := (raw_pos_iff p t).not.mp hraw
    constructor
    · simp [picker, h1, h2, hraw, hx]
    · intro l hres
      simp [picker, h1, h2, hraw] at hres

/-! ## C8: distance_law is diagonal averaging -/

/-- The worked example of the docstring: an all-ones 3×3 matrix plus the
row vector [1, 2, 3] broadcast across rows, i.e. every row is [2, 3, 4]. -/
def dlExample : Mat := ⟨3, 3, fun _ j => (j : ℚ) + 2⟩

/-- C8: entry `d` of distance_law is the mean of the entries `(i, i - d)`
for `d ≤ i < n`, and on the worked example the result is [3, 2.5, 2]. -/
theorem distance_law_diag_mean (M : Mat) (d : ℕ) (hd : d < M.m) :
    (distance_law M).getD d 0 =
      (∑ i in Finset.Ico d M.m, M.f i (i - d)) / ((M.m : ℚ) - (d : ℚ)) ∧
    distance_law dlExample = [3, 5/2, 2] := by
  constructor
  · rw [distance_law, getD_map_range _ _ _ _ hd]
    have hlen : (diagLower M d).length = M.m - d := by
      rw [diagLower, List.length_map, List.length_range]
    have hsum : (diagLower M d).sum = ∑ i in Finset.Ico d M.m, M.f i (i - d) := by
      rw [diagLower, sum_map_range_eq, Finset.sum_Ico_eq_sum_range]
      apply Finset.sum_congr rfl
      intro k _
      have h1 : k + d - d = k := by omega
      rw [Nat.add_comm d k, h1]
    have hcast : ((M.m - d : ℕ) : ℚ) = (M.m : ℚ) - (d : ℚ) := by
      rw [Nat.cast_sub (Nat.le_of_lt hd)]
    rw [npMean, hlen, hsum, hcast]
  · with_unfolding_all decide

/-! ## C4: every recorded outlier is zeroed, count equals list length -/

theorem matUpdate_self (A : Mat) (a b : ℕ) (v : ℚ) : (matUpdate A a b v).f a b = v := by
  simp [matUpdate]

theorem matUpdate_zero_entry (A : Mat) (a b r c : ℕ) :
    (matUpdate A a b 0).f r c = 0 ∨ (matUpdate A a b 0).f r c = A.f r c := by
  by_cases h : r = a ∧ c = b
  · left; simp [matUpdate, h]
  · right; simp [matUpdate, h]

theorem despeckle_upd_inv (M : Mat) (cnt : ℕ) (out : List (ℕ × ℕ)) (a b : ℕ)
    (hcount : cnt = out.length) (hzero : ∀ q ∈ out, M.f q.1 q.2 = 0) :
    cnt + 1 = (out ++ [(a, b)]).length ∧
    ∀ q ∈ out ++ [(a, b)], (matUpdate M a b 0).f q.1 q.2 = 0 := by
  constructor
  · simp [hcount]
  · intro q hq
    rcases List.mem_append.mp hq with h | h
    · rcases matUpdate_zero_entry M a b q.1 q.2 with h0 | h0
      · exact h0
      · rw [h0]; exact hzero q h
    · have : q = (a, b) := by simpa using h
      subst this
      exact matUpdate_self M a b 0

theorem despeckleStep_speckle_inv (dist : ℕ → List ℚ) (std : List ℚ → ℚ) (th2 : ℚ)
    (n : ℕ) (st : Mat × ℕ × List (ℕ × ℕ)) (p : ℕ × ℕ)
    (hcount : st.2.1 = st.2.2.length)
    (hzero : ∀ q ∈ st.2.2, st.1.f q.1 q.2 = 0) :
    (despeckleStep dist std th2 n st p).2.1 =
      (despeckleStep dist std th2 n st p).2.2.length ∧
    ∀ q ∈ (despeckleStep dist std th2 n st p).2.2,
      (despeckleStep dist std th2 n st p).1.f q.1 q.2 = 0 := by
  unfold despeckleStep
  dsimp only
  have step1 : ∀ (st' : Mat × ℕ × List (ℕ × ℕ)),
      st'.2.1 = st'.2.2.length → (∀ q ∈ st'.2.2, st'.1.f q.1 q.2 = 0) →
      ∀ (a b : ℕ),
        ((if despeckleCutoff std th2 (dist p.1) < st'.1.f a b then
          (matUpdate st'.1 a b 0, st'.2.1 + 1, st'.2.2 ++ [(a, b)]) else st') :
          Mat × ℕ × List (ℕ × ℕ)).2.1 =
        ((if despeckleCutoff std th2 (dist p.1) < st'.1.f a b then
          (matUpdate st'.1 a b 0, st'.2.1 + 1, st'.2.2 ++ [(a, b)]) else st') :
          Mat × ℕ × List (ℕ × ℕ)).2.2.length ∧
        ∀ q ∈ ((if despeckleCutoff std th2 (dist p.1) < st'.1.f a b then
          (matUpdate st'.1 a b 0, st'.2.1 + 1, st'.2.2 ++ [(a, b)]) else st') :
          Mat × ℕ × List (ℕ × ℕ)).2.2,
          ((if despeckleCutoff std th2 (dist p.1) < st'.1.f a b then
            (matUpdate st'.1 a b 0, st'.2.1 + 1, st'.2.2 ++ [(a, b)]) else st') :
            Mat × ℕ × List (ℕ × ℕ)).1.f q.1 q.2 = 0 := by
    intro st' h1 h2 a b
    by_cases hlt : despeckleCutoff std th2 (dist p.1) < st'.1.f a b
    · rw [if_pos hlt]
      exact despeckle_upd_inv st'.1 st'.2.1 st'.2.2 a b h1 h2
    · rw [if_neg hlt]
      exact ⟨h1, h2⟩
  by_cases h1 : p.2 + p.1 < n
  · rw [if_pos h1]
    have hs1 := step1 st hcount hzero p.2 (p.2 + p.1)
    by_cases h2 : p.1 ≤ p.2
    · rw [if_pos h2]
      exact step1 _ hs1.1 hs1.2 p.2 (p.2 - p.1)
    · rw [if_neg h2]
      exact hs1
  · rw [if_neg h1]
    by_cases h2 : p.1 ≤ p.2
    · rw [if_pos h2]
      exact step1 st hcount hzero p.2 (p.2 - p.1)
    · rw [if_neg h2]
      exact ⟨hcount, hzero⟩

theorem despeckleFold_speckle_inv (dist : ℕ → List ℚ) (std : List ℚ → ℚ) (th2 : ℚ)
    (n : ℕ) :
    ∀ (todo : List (ℕ × ℕ)) (st : Mat × ℕ × List (ℕ × ℕ)),
      st.2.1 = st.2.2.length → (∀ q ∈ st.2.2, st.1.f q.1 q.2 = 0) →
      ((todo.foldl (despeckleStep dist std th2 n) st).2.1 =
        (todo.foldl (despeckleStep dist std th2 n) st).2.2.length ∧
       ∀ q ∈ (todo.foldl (despeckleStep dist std th2 n) st).2.2,
         (todo.foldl (despeckleStep dist std th2 n) st).1.f q.1 q.2 = 0)
  | [], _, h1, h2 => ⟨h1, h2⟩
  | p :: rest, st, h1, h2 => by
    rw [List.foldl_cons]
    have h := despeckleStep_speckle_inv dist std th2 n st p h1 h2
    exact despeckleFold_speckle_inv dist std th2 n rest _ h.1 h.2

/-- C4: every coordinate reported in despeckles' outlier list holds the
value 0 in the returned matrix, and the returned speckle count equals the
length of the outlier list. -/
theorem despeckles_outlier_zero (std : List ℚ → ℚ) (A : Mat) (th2 : ℚ) (r c : ℕ)
    (hsq : A.n = A.m)
    (hnn : ∀ i, i < A.m → ∀ j, j < A.m → 0 ≤ A.f i j)
    (hmem : (r, c) ∈ (despeckles std A th2).outlier) :
    (despeckles std A th2).mat.f r c = 0 ∧
    (despeckles std A th2).n_speckles = (despeckles std A th2).outlier.length := by
  have h := despeckleFold_speckle_inv
    (fun nw => (List.range A.m).filterMap
      (fun j => if j + nw < A.m then some (A.f j (j + nw)) else none))
    std th2 A.m (pairList A.m) (A, 0, []) rfl (by intro q hq; simp at hq)
  exact ⟨h.2 (r, c) hmem, h.1⟩

/-! ## C3: distributions are fixed before any clipping -/

theorem filterMap_all_some {α β : Type} (f : α → Option β) (g : α → β) :
    ∀ (l : List α), (∀ x ∈ l, f x = some (g x)) → l.filterMap f = l.map g
  | [], _ => rfl
  | x :: xs, h => by
    rw [List.filterMap_cons, List.map_cons, h x (List.mem_cons_self x xs),
      filterMap_all_some f g xs (fun y hy => h y (List.mem_cons_of_mem x hy))]

/-- The distributions collected by the first pass of despeckles are exactly
the upper-diagonal slices of the input matrix. -/
theorem despeckles_dist_eq (A : Mat) (nw : ℕ) :
    (List.range A.m).filterMap
      (fun j => if j + nw < A.m then some (A.f j (j + nw)) else none) =
    diagSlice A nw := by
  by_cases h : nw ≤ A.m
  · have hsplit : A.m = (A.m - nw) + nw := by omega
    rw [diagSlice]
    conv_lhs => rw [hsplit, List.range_add]
    rw [List.filterMap_append, List.filterMap_map]
    rw [filterMap_all_some _ (fun j => A.f j (j + nw)) _ (fun j hj => by
      have hj' : j < A.m - nw := List.mem_range.mp hj
      rw [if_pos (by omega)])]
    rw [← hsplit]
    have hnone : (List.range nw).filterMap
        ((fun j => if j + nw < A.m then some (A.f j (j + nw)) else none) ∘
          (fun x => A.m - nw + x)) = [] := by
      rw [List.filterMap_eq_nil_iff]
      intro x hx
      simp only [Function.comp_apply]
      rw [if_neg (by omega)]
    rw [hnone, List.append_nil]
  · have h1 : A.m - nw = 0 := by omega
    rw [diagSlice, h1]
    rw [List.filterMap_eq_nil_iff.mpr (fun x hx => by
      have := List.mem_range.mp hx
      rw [if_neg (by omega)])]
    rfl

theorem nat_dist_add (j nw : ℕ) : Nat.dist j (j + nw) = nw := by
  simp [Nat.dist]

theorem nat_dist_sub (j nw : ℕ) (h : nw ≤ j) : Nat.dist j (j - nw) = nw := by
  simp [Nat.dist]
  omega

theorem matUpdate_ne (A : Mat) (a b r c : ℕ) (v : ℚ) (h : ¬(r = a ∧ c = b)) :
    (matUpdate A a b v).f r c = A.f r c := by
  simp [matUpdate, h]

/-- Clipping a value that is either the original or an already-clipped zero
yields the one-shot clip of the original (the reason why re-examining an
already-clipped diagonal cell never changes the matrix). -/
theorem clip_abs (cut v w : ℚ) (hw : w = v ∨ (w = 0 ∧ cut < v)) :
    (if cut < w then (0 : ℚ) else w) = if cut < v then 0 else v := by
  rcases hw with h | ⟨h0, hlt⟩
  · subst h; rfl
  · subst h0
    rw [if_pos hlt, ite_self]

/-- The cutoff that governs the clipping of the matrix cell `q`: the one of
its diagonal's distribution. -/
def diagCut (dist : ℕ → List ℚ) (std : List ℚ → ℚ) (th2 : ℚ) (q : ℕ × ℕ) : ℚ :=
  despeckleCutoff std th2 (dist (Nat.dist q.1 q.2))

/-- The matrix cells that the clipping pass examines when processing the
loop indices `(nw, j)`: `(j, j + nw)` when in range, then `(j, j - nw)`. -/
def keysOf (p : ℕ × ℕ) (n : ℕ) : List (ℕ × ℕ) :=
  (if p.2 + p.1 < n then [(p.2, p.2 + p.1)] else []) ++
    (if p.1 ≤ p.2 then [(p.2, p.2 - p.1)] else [])

/-- All cells examined while processing a list of loop indices. -/
def keysAll (done : List (ℕ × ℕ)) (n : ℕ) : List (ℕ × ℕ) :=
  done.flatMap (fun p => keysOf p n)

/-- One conditional clip preserves the closed-form invariant: afterwards the
examined cell also holds its one-shot clip against the fixed cutoffs. -/
theorem condUpd_clip_inv (n : ℕ) (A M : Mat) (cutf : ℕ × ℕ → ℚ)
    (keys : List (ℕ × ℕ)) (a b : ℕ) (cut : ℚ) (hcut : cut = cutf (a, b))
    (hinv : ∀ r c, r < n → c < n →
      M.f r c = if (r, c) ∈ keys ∧ cutf (r, c) < A.f r c then 0 else A.f r c) :
    ∀ r c, r < n → c < n →
      (if cut < M.f a b then matUpdate M a b 0 else M).f r c =
        if (r, c) ∈ keys ++ [(a, b)] ∧ cutf (r, c) < A.f r c then 0 else A.f r c := by
  intro r c hr hc
  by_cases heq : r = a ∧ c = b
  · obtain ⟨hra, hcb⟩ := heq
    subst hra; subst hcb
    have hmem : (r, c) ∈ keys ++ [(r, c)] := by simp
    rw [if_congr (and_iff_right hmem) rfl rfl]
    rw [apply_ite (fun M : Mat => M.f r c), matUpdate_self]
    rw [hcut]
    apply clip_abs
    have horig := hinv r c hr hc
    by_cases hk : (r, c) ∈ keys ∧ cutf (r, c) < A.f r c
    · rw [if_pos hk] at horig
      exact Or.inr ⟨horig, hk.2⟩
    · rw [if_neg hk] at horig
      exact Or.inl horig
  · have hL : (if cut < M.f a b then matUpdate M a b 0 else M).f r c = M.f r c := by
      rw [apply_ite (fun M : Mat => M.f r c), matUpdate_ne M a b r c 0 heq, ite_self]
    rw [hL]
    have hmemiff : ((r, c) ∈ keys ++ [(a, b)]) ↔ (r, c) ∈ keys := by
      rw [List.mem_append]
      simp only [List.mem_singleton, Prod.mk.injEq]
      constructor
      · rintro (h | h)
        · exact h
        · exact absurd h heq
      · exact Or.inl
    rw [if_congr (and_congr_left fun _ => hmemiff) rfl rfl]
    exact hinv r c hr hc

/-- Processing one `(nw, j)` index pair preserves the closed-form clipping
invariant, extending the examined-cell list by the cells of that pair. -/
theorem despeckleStep_clip_inv (dist : ℕ → List ℚ) (std : List ℚ → ℚ) (th2 : ℚ)
    (n : ℕ) (A : Mat) (done : List (ℕ × ℕ)) (st : Mat × ℕ × List (ℕ × ℕ))
    (p : ℕ × ℕ)
    (hinv : ∀ r c, r < n → c < n →
      st.1.f r c = if (r, c) ∈ keysAll done n ∧
        diagCut dist std th2 (r, c) < A.f r c then 0 else A.f r c) :
    ∀ r c, r < n → c < n →
      (despeckleStep dist std th2 n st p).1.f r c =
        if (r, c) ∈ keysAll (done ++ [p]) n ∧
          diagCut dist std th2 (r, c) < A.f r c then 0 else A.f r c := by
  have hcut1 : despeckleCutoff std th2 (dist p.1) = diagCut dist std th2 (p.2, p.2 + p.1) := by
    rw [diagCut, nat_dist_add]
  intro r c hr hc
  unfold despeckleStep
  dsimp only
  simp only [apply_ite (fun x : Mat × ℕ × List (ℕ × ℕ) => x.1)]
  by_cases hg1 : p.2 + p.1 < n
  · rw [if_pos hg1]
    have h1 := condUpd_clip_inv n A st.1 (diagCut dist std th2) (keysAll done n)
      p.2 (p.2 + p.1) (despeckleCutoff std th2 (dist p.1)) hcut1 hinv
    by_cases hg2 : p.1 ≤ p.2
    · rw [if_pos hg2]
      have hcut2 : despeckleCutoff std th2 (dist p.1) =
          diagCut dist std th2 (p.2, p.2 - p.1) := by
        rw [diagCut, nat_dist_sub p.2 p.1 hg2]
      have h2 := condUpd_clip_inv n A _ (diagCut dist std th2)
        (keysAll done n ++ [(p.2, p.2 + p.1)]) p.2 (p.2 - p.1)
        (despeckleCutoff std th2 (dist p.1)) hcut2 h1
      have hkeys : keysAll (done ++ [p]) n =
          (keysAll done n ++ [(p.2, p.2 + p.1)]) ++ [(p.2, p.2 - p.1)] := by
        simp [keysAll, keysOf, hg1, hg2]
      rw [hkeys]
      exact h2 r c hr hc
    · rw [if_neg hg2]
      have hkeys : keysAll (done ++ [p]) n = keysAll done n ++ [(p.2, p.2 + p.1)] := by
        simp [keysAll, keysOf, hg1, hg2]
      rw [hkeys]
      exact h1 r c hr hc
  · rw [if_neg hg1]
    by_cases hg2 : p.1 ≤ p.2
    · rw [if_pos hg2]
      have hcut2 : despeckleCutoff std th2 (dist p.1) =
          diagCut dist std th2 (p.2, p.2 - p.1) := by
        rw [diagCut, nat_dist_sub p.2 p.1 hg2]
      have h2 := condUpd_clip_inv n A st.1 (diagCut dist std th2) (keysAll done n)
        p.2 (p.2 - p.1) (despeckleCutoff std th2 (dist p.1)) hcut2 hinv
      have hkeys : keysAll (done ++ [p]) n = keysAll done n ++ [(p.2, p.2 - p.1)] := by
        simp [keysAll, keysOf, hg1, hg2]
      rw [hkeys]
      exact h2 r c hr hc
    · rw [if_neg hg2]
      have hkeys : keysAll (done ++ [p]) n = keysAll done n := by
        simp [keysAll, keysOf, hg1, hg2]
      rw [hkeys]
      exact hinv r c hr hc

theorem despeckleFold_clip_inv (dist : ℕ → List ℚ) (std : List ℚ → ℚ) (th2 : ℚ)
    (n : ℕ) (A : Mat) :
    ∀ (todo done : List (ℕ × ℕ)) (st : Mat × ℕ × List (ℕ × ℕ)),
      (∀ r c, r < n → c < n →
        st.1.f r c = if (r, c) ∈ keysAll done n ∧
          diagCut dist std th2 (r, c) < A.f r c then 0 else A.f r c) →
      ∀ r c, r < n → c < n →
        ((todo.foldl (despeckleStep dist std th2 n) st).1.f r c =
          if (r, c) ∈ keysAll (done ++ todo) n ∧
            diagCut dist std th2 (r, c) < A.f r c then 0 else A.f r c)
  | [], done, st, hinv => by simpa using hinv
  | p :: rest, done, st, hinv => by
    rw [List.foldl_cons]
    have hstep := despeckleStep_clip_inv dist std th2 n A done st p hinv
    have h := despeckleFold_clip_inv dist std th2 n A rest (done ++ [p]) _ hstep
    intro r c hr hc
    rw [show done ++ p :: rest = (done ++ [p]) ++ rest by simp]
    exact h r c hr hc

theorem mem_pairList (n : ℕ) (q : ℕ × ℕ) : q ∈ pairList n ↔ q.1 < n ∧ q.2 < n := by
  obtain ⟨a, b⟩ := q
  simp [pairList, List.mem_flatMap]

theorem mem_keysAll_pairList (n r c : ℕ) (hr : r < n) (hc : c < n) :
    (r, c) ∈ keysAll (pairList n) n := by
  rw [keysAll, List.mem_flatMap]
  refine ⟨(Nat.dist r c, r), (mem_pairList n (Nat.dist r c, r)).mpr
    ⟨by simp [Nat.dist]; omega, hr⟩, ?_⟩
  rw [keysOf, List.mem_append]
  by_cases hrc : r ≤ c
  · left
    have hup : r + Nat.dist r c = c := by simp [Nat.dist]; omega
    rw [if_pos (by omega)]
    simp [hup]
  · right
    have hlow : Nat.dist r c ≤ r := by simp [Nat.dist]; omega
    have hdown : r - Nat.dist r c = c := by simp [Nat.dist]; omega
    rw [if_pos hlow]
    simp [hdown]

/-- C3: the distributions despeckles returns are the diagonal slices of the
unmutated input matrix, and the returned matrix is the one-shot clip of the
input against the cutoffs median + th2·std computed from those fixed
pre-mutation distributions: clipping never feeds back into the statistics. -/
theorem despeckles_fixed_stats (std : List ℚ → ℚ) (A : Mat) (th2 : ℚ)
    (nw r c : ℕ) (hsq : A.n = A.m) (hnw : nw < A.m) (hr : r < A.m) (hc : c < A.m) :
    (despeckles std A th2).dist nw = diagSlice A nw ∧
    (despeckles std A th2).mat.f r c =
      (if despeckleCutoff std th2 (diagSlice A (Nat.dist r c)) < A.f r c then 0
       else A.f r c) := by
  constructor
  · exact despeckles_dist_eq A nw
  · have hbase : ∀ r' c', r' < A.m → c' < A.m →
        ((A, 0, ([] : List (ℕ × ℕ))) : Mat × ℕ × List (ℕ × ℕ)).1.f r' c' =
          if (r', c') ∈ keysAll [] A.m ∧
            diagCut (fun nw' => (List.range A.m).filterMap
              (fun j => if j + nw' < A.m then some (A.f j (j + nw')) else none))
              std th2 (r', c') < A.f r' c' then 0 else A.f r' c' := by
      intro r' c' _ _
      rw [if_neg (by simp [keysAll])]
    have h := despeckleFold_clip_inv
      (fun nw' => (List.range A.m).filterMap
        (fun j => if j + nw' < A.m then some (A.f j (j + nw')) else none))
      std th2 A.m A (pairList A.m) [] (A, 0, []) hbase r c hr hc
    rw [List.nil_append] at h
    have hmem := mem_keysAll_pairList A.m r c hr hc
    rw [if_congr (and_iff_right hmem) rfl rfl] at h
    have hcuteq : diagCut (fun nw' => (List.range A.m).filterMap
        (fun j => if j + nw' < A.m then some (A.f j (j + nw')) else none))
        std th2 (r, c) = despeckleCutoff std th2 (diagSlice A (Nat.dist r c)) := by
      rw [diagCut, despeckles_dist_eq A (Nat.dist r c)]
    rw [hcuteq] at h
    exact h

/-! ## C9: re-running scn_func -/

theorem activeColSum_congr (M B : Mat) (act : ℕ → Bool) (c : ℕ)
    (hm : M.m = B.m) (hc : c < B.m)
    (heq : ∀ r c', r < B.m → c' < B.m → M.f r c' = B.f r c') :
    activeColSum M act c = activeColSum B act c := by
  rw [activeColSum, activeColSum, hm]
  apply congrArg List.sum
  apply List.map_congr_left
  intro r hrmem
  have hr := List.mem_range.mp (List.mem_filter.mp hrmem).1
  exact heq r c hr hc

theorem activeRowSum_congr (M B : Mat) (act : ℕ → Bool) (r : ℕ)
    (hm : M.m = B.m) (hr : r < B.m)
    (heq : ∀ r' c', r' < B.m → c' < B.m → M.f r' c' = B.f r' c') :
    activeRowSum M act r = activeRowSum B act r := by
  rw [activeRowSum, activeRowSum, hm]
  apply congrArg List.sum
  apply List.map_congr_left
  intro c hcmem
  have hc := List.mem_range.mp (List.mem_filter.mp hcmem).1
  exact heq r c hr hc

theorem activeColSum_zero_col (B : Mat) (act : ℕ → Bool) (c : ℕ)
    (hz : ∀ r, r < B.m → B.f r c = 0) : activeColSum B act c = 0 := by
  rw [activeColSum]
  apply List.sum_eq_zero
  intro x hx
  obtain ⟨r, hrmem, hrx⟩ := List.mem_map.mp hx
  have hr := List.mem_range.mp (List.mem_filter.mp hrmem).1
  rw [← hrx]
  exact hz r hr

theorem activeRowSum_zero_row (B : Mat) (act : ℕ → Bool) (r : ℕ)
    (hz : ∀ c, c < B.m → B.f r c = 0) : activeRowSum B act r = 0 := by
  rw [activeRowSum]
  apply List.sum_eq_zero
  intro x hx
  obtain ⟨c, hcmem, hcx⟩ := List.mem_map.mp hx
  have hc := List.mem_range.mp (List.mem_filter.mp hcmem).1
  rw [← hcx]
  exact hz c hc

/-- On an exactly balanced matrix (active restricted row/column sums equal
to 1, inactive rows and columns identically zero), the column pass with the
threshold-0 active set leaves every in-range entry unchanged. -/
theorem colStep_fix (B M : Mat) (hm : M.m = B.m) (hn : M.n = B.n)
    (heq : ∀ r c, r < B.m → c < B.m → M.f r c = B.f r c)
    (hzrow : ∀ i, i < B.m → rowSumFull B i ≤ 0 → ∀ j, j < B.m → B.f i j = 0)
    (hzcol : ∀ i, i < B.m → rowSumFull B i ≤ 0 → ∀ j, j < B.m → B.f j i = 0)
    (hcol1 : ∀ i, i < B.m → 0 < rowSumFull B i →
      activeColSum B (scnActive B 0) i = 1) :
    ∀ r c, r < B.m → c < B.m → (colStep (scnActive B 0) M).f r c = B.f r c := by
  intro r c hr hc
  show (if r < M.m ∧ c < M.m then _ else _) = B.f r c
  rw [if_pos (by omega)]
  by_cases hactr : scnActive B 0 r = true
  · rw [if_pos hactr]
    rw [heq r c hr hc, activeColSum_congr M B (scnActive B 0) c hm hc heq]
    by_cases hactc : scnActive B 0 c = true
    · have hcpos : 0 < rowSumFull B c := by
        have := of_decide_eq_true hactc
        exact this
      rw [hcol1 c hc hcpos, safediv, if_neg one_ne_zero, div_one]
    · have hcle : rowSumFull B c ≤ 0 := not_lt.mp (by simpa [scnActive] using hactc)
      have hz : ∀ r', r' < B.m → B.f r' c = 0 := fun r' hr' =>
        hzcol c hc hcle r' hr'
      rw [activeColSum_zero_col B (scnActive B 0) c hz, safediv, if_pos rfl]
      exact (hz r hr).symm
  · rw [if_neg hactr]
    have hrle : rowSumFull B r ≤ 0 := not_lt.mp (by simpa [scnActive] using hactr)
    exact (hzrow r hr hrle c hc).symm

/-- The row pass does the same. -/
theorem rowStep_fix (B M : Mat) (hm : M.m = B.m) (hn : M.n = B.n)
    (heq : ∀ r c, r < B.m → c < B.m → M.f r c = B.f r c)
    (hzrow : ∀ i, i < B.m → rowSumFull B i ≤ 0 → ∀ j, j < B.m → B.f i j = 0)
    (hzcol : ∀ i, i < B.m → rowSumFull B i ≤ 0 → ∀ j, j < B.m → B.f j i = 0)
    (hrow1 : ∀ i, i < B.m → 0 < rowSumFull B i →
      activeRowSum B (scnActive B 0) i = 1) :
    ∀ r c, r < B.m → c < B.m → (rowStep (scnActive B 0) M).f r c = B.f r c := by
  intro r c hr hc
  show (if r < M.m ∧ c < M.m then _ else _) = B.f r c
  rw [if_pos (by omega)]
  by_cases hactc : scnActive B 0 c = true
  · rw [if_pos hactc]
    rw [heq r c hr hc, activeRowSum_congr M B (scnActive B 0) r hm hr heq]
    by_cases hactr : scnActive B 0 r = true
    · have hrpos : 0 < rowSumFull B r := of_decide_eq_true hactr
      rw [hrow1 r hr hrpos, safediv, if_neg one_ne_zero, div_one]
    · have hrle : rowSumFull B r ≤ 0 := not_lt.mp (by simpa [scnActive] using hactr)
      have hz : ∀ c', c' < B.m → B.f r c' = 0 := fun c' hc' =>
        hzrow r hr hrle c' hc'
      rw [activeRowSum_zero_row B (scnActive B 0) r hz, safediv, if_pos rfl]
      exact (hz c hc).symm
  · rw [if_neg hactc]
    have hcle : rowSumFull B c ≤ 0 := not_lt.mp (by simpa [scnActive] using hactc)
    exact (hzcol c hc hcle r hr).symm

theorem scnLoop_fix (B : Mat)
    (hzrow : ∀ i, i < B.m → rowSumFull B i ≤ 0 → ∀ j, j < B.m → B.f i j = 0)
    (hzcol : ∀ i, i < B.m → rowSumFull B i ≤ 0 → ∀ j, j < B.m → B.f j i = 0)
    (hrow1 : ∀ i, i < B.m → 0 < rowSumFull B i →
      activeRowSum B (scnActive B 0) i = 1)
    (hcol1 : ∀ i, i < B.m → 0 < rowSumFull B i →
      activeColSum B (scnActive B 0) i = 1) :
    ∀ (k : ℕ) (M : Mat), M.m = B.m → M.n = B.n →
      (∀ r c, r < B.m → c < B.m → M.f r c = B.f r c) →
      (scnLoop (scnActive B 0) k M).m = B.m ∧
      (scnLoop (scnActive B 0) k M).n = B.n ∧
      ∀ r c, r < B.m → c < B.m → (scnLoop (scnActive B 0) k M).f r c = B.f r c
  | 0, M, hm, hn, heq => ⟨hm, hn, heq⟩
  | k + 1, M, hm, hn, heq => by
    rw [scnLoop]
    have hcol := colStep_fix B M hm hn heq hzrow hzcol hcol1
    have hrow := rowStep_fix B (colStep (scnActive B 0) M) hm hn hcol hzrow hzcol hrow1
    exact scnLoop_fix B hzrow hzcol hrow1 hcol1 k _ hm hn hrow

/-- C9 (amended): a matrix that is exactly balanced for the threshold-0
active set (restricted row and column sums equal to 1 on every active
index, inactive rows and columns identically zero) is an exact fixed point
of scn_func with threshold 0: re-running the normalizer changes no entry. -/
theorem scn_func_exact_fixed_point (B : Mat) (r c : ℕ) (hr : r < B.m) (hc : c < B.m)
    (hzrow : ∀ i, i < B.m → rowSumFull B i ≤ 0 → ∀ j, j < B.m → B.f i j = 0)
    (hzcol : ∀ i, i < B.m → rowSumFull B i ≤ 0 → ∀ j, j < B.m → B.f j i = 0)
    (hrow1 : ∀ i, i < B.m → 0 < rowSumFull B i →
      activeRowSum B (scnActive B 0) i = 1)
    (hcol1 : ∀ i, i < B.m → 0 < rowSumFull B i →
      activeColSum B (scnActive B 0) i = 1) :
    (scn_func B 0).f r c = B.f r c :=
  (scnLoop_fix B hzrow hzcol hrow1 hcol1 10 B rfl rfl
    (fun _ _ _ _ => rfl)).2.2 r c hr hc

/-- The 1×1 matrix [[100]]. -/
def scnCounterM : Mat := ⟨1, 1, fun _ _ => 100⟩

/-- C9 (counterexample to the claim as stated): scn_func([[100]], 50)
converges to [[1]], but re-running scn_func with the same threshold 50
zeroes the matrix (the normalized row sum 1 no longer exceeds the
threshold), changing the entry by 1 — not by less than a small tolerance. -/
theorem scn_func_rerun_counterexample :
    (scn_func scnCounterM 50).f 0 0 = 1 ∧
    (scn_func (scn_func scnCounterM 50) 50).f 0 0 = 0 := by
  constructor
  · with_unfolding_all decide
  · with_unfolding_all decide

/-! ## C10: picker coordinates index the map directly and exceed the threshold -/

theorem bfs_good (good : ℕ × ℕ → Bool) :
    ∀ (fuel : ℕ) (frontier vis : List (ℕ × ℕ)) (q : ℕ × ℕ),
      q ∈ bfs good fuel frontier vis → q ∈ vis ∨ good q = true
  | 0, _, _, _, hq => Or.inl hq
  | fuel + 1, frontier, vis, q, hq => by
    rw [bfs] at hq
    rcases bfs_good good fuel _ _ q hq with h | h
    · rcases List.mem_append.mp h with h' | h'
      · exact Or.inl h'
      · right
        have := (List.mem_filter.mp h').2
        exact (Bool.and_eq_true _ _ ▸ this).1
    · exact Or.inr h

theorem buildComps_good (good : ℕ × ℕ → Bool) (fuel : ℕ) :
    ∀ (pixels : List (ℕ × ℕ)) (acc : List (List (ℕ × ℕ))),
      (∀ comp ∈ acc, ∀ q ∈ comp, good q = true) →
      ∀ comp ∈ pixels.foldl (fun comps q =>
          if good q && !(comps.any (fun comp => comp.contains q)) then
            comps ++ [bfs good fuel [q] [q]]
          else comps) acc,
        ∀ q ∈ comp, good q = true
  | [], acc, hacc => hacc
  | px :: rest, acc, hacc => by
    rw [List.foldl_cons]
    apply buildComps_good good fuel rest
    by_cases hcond : (good px && !(acc.any (fun comp => comp.contains px))) = true
    · rw [if_pos hcond]
      intro comp hcomp q hq
      rcases List.mem_append.mp hcomp with h | h
      · exact hacc comp h q hq
      · have hcompeq : comp = bfs good fuel [px] [px] := by simpa using h
        subst hcompeq
        rcases bfs_good good fuel [px] [px] q hq with h' | h'
        · have : q = px := by simpa using h'
          subst this
          exact (Bool.and_eq_true _ _ ▸ hcond).1
        · exact h'
    · rw [if_neg hcond]
      exact hacc

theorem labelOf_mem (q : ℕ × ℕ) :
    ∀ (comps : List (List (ℕ × ℕ))) (k : ℕ), labelOf comps q = k + 1 →
      ∃ comp ∈ comps, q ∈ comp
  | [], k, h => by simp [labelOf] at h
  | c :: rest, k, h => by
    rw [labelOf] at h
    by_cases hqc : q ∈ c
    · exact ⟨c, List.mem_cons_self c rest, hqc⟩
    · rw [if_neg hqc] at h
      rcases hrest : labelOf rest q with _ | r
      · rw [hrest] at h
        exact absurd h (by simp)
      · obtain ⟨comp, hcomp, hqcomp⟩ := labelOf_mem q rest r hrest
        exact ⟨comp, List.mem_cons_of_mem c hcomp, hqcomp⟩

theorem argmaxIdx_lt : ∀ (l : List ℚ), l ≠ [] → argmaxIdx l < l.length
  | [], h => absurd rfl h
  | [_], _ => by rw [argmaxIdx]; simp
  | v :: w :: rest, _ => by
    rw [argmaxIdx]
    split
    · simp
    · have := argmaxIdx_lt (w :: rest) (by simp)
      simpa using Nat.succ_lt_succ this

/-- C10: every coordinate of a non-sentinel picker result indexes the
original probability map directly (no bounding-box offset) and has a
probability strictly above the threshold. -/
theorem picker_coords_exceed (p : Mat) (t : ℚ) (l : List (ℕ × ℕ)) (i j : ℕ)
    (hres : picker p t = Except.ok (PickResult.coords l)) (hmem : (i, j) ∈ l) :
    i < p.m ∧ j < p.n ∧ t < p.f i j := by
  by_cases h1 : (scanPixels p.m p.n).any (fun q => decide (1 < p.f q.1 q.2)) = true
  · rw [picker, if_pos h1] at hres
    exact absurd hres (by simp)
  · by_cases h2 : (scanPixels p.m p.n).any (fun q => decide (p.f q.1 q.2 < 0)) = true
    · rw [picker, if_neg h1, if_pos h2] at hres
      exact absurd hres (by simp)
    · by_cases h3 : 0 < (rawCandidates p t).length
      · rw [picker, if_neg h1, if_neg h2, if_pos h3] at hres
        have hl : (pickerRows p t).filterMap id = l := by
          have := Except.ok.inj hres
          exact PickResult.coords.inj this
        rw [← hl] at hmem
        obtain ⟨o, homem, hoid⟩ := List.mem_filterMap.mp hmem
        obtain ⟨ff, _, hffo⟩ := List.mem_map.mp homem
        simp only [id_eq] at hoid
        rw [← hffo] at hoid
        rw [pickerRow] at hoid
        by_cases hc1 : ((((scanPixels (pickerI p t + 1) (pickerJ p t + 1)).filter
            (fun q => decide (labelOf (pickerComps p t) q = ff + 1))).filter
            (fun q => pickerGood p t q)).length = 0)
        · rw [if_pos hc1] at hoid
          exact absurd hoid (by simp)
        · rw [if_neg hc1] at hoid
          by_cases hc2 : (((scanPixels (pickerI p t + 1) (pickerJ p t + 1)).filter
              (fun q => decide (labelOf (pickerComps p t) q = ff + 1))).length = 1)
          · rw [if_pos hc2] at hoid
            exact absurd hoid (by simp)
          · rw [if_neg hc2] at hoid
            have hij : (i, j) ∈ (scanPixels (pickerI p t + 1) (pickerJ p t + 1)).filter
                (fun q => decide (labelOf (pickerComps p t) q = ff + 1)) := by
              have hne : (scanPixels (pickerI p t + 1) (pickerJ p t + 1)).filter
                  (fun q => decide (labelOf (pickerComps p t) q = ff + 1)) ≠ [] := by
                intro hnil
                rw [hnil] at hc1
                exact hc1 rfl
              have hlt := argmaxIdx_lt (((scanPixels (pickerI p t + 1)
                  (pickerJ p t + 1)).filter
                  (fun q => decide (labelOf (pickerComps p t) q = ff + 1))).map
                  (fun q => p.f q.1 q.2)) (by simpa using hne)
              rw [List.length_map] at hlt
              have hgd := getD_mem _ _ ((0, 0) : ℕ × ℕ) hlt
              have heq := Option.some.inj hoid
              rw [heq] at hgd
              exact hgd
            have hlab := of_decide_eq_true (List.mem_filter.mp hij).2
            obtain ⟨comp, hcomp, hqcomp⟩ := labelOf_mem (i, j) (pickerComps p t) ff hlab
            have hgood := buildComps_good (pickerGood p t)
              ((pickerI p t + 1) * (pickerJ p t + 1))
              (scanPixels (pickerI p t + 1) (pickerJ p t + 1)) []
              (by intro comp h; simp at h) comp hcomp (i, j) hqcomp
            have hraw : (i, j) ∈ rawCandidates p t := of_decide_eq_true hgood
            exact mem_rawCandidates p t (i, j) hraw
      · rw [picker, if_neg h1, if_neg h2, if_neg h3] at hres
        have := Except.ok.inj hres
        exact absurd this (by simp)

/-! ## C5: the two-isolated-pixels-plus-blob scenario -/

/-- A 4×4 probability map realizing the spec's scenario: isolated
high-probability pixels at (0,0) (0.9) and (0,3) (0.85), and a 4-connected
3-pixel blob {(2,1), (2,2), (3,2)} with values 0.95, 0.99, 0.9; its
maximum-probability pixel is (2,2).  All other pixels are 0. -/
def blobExampleRows : List (List ℚ) :=
  [[9/10, 0, 0, 17/20], [0, 0, 0, 0], [0, 19/20, 99/100, 0], [0, 0, 9/10, 0]]

def exampleProbas : Mat := ⟨4, 4, fun i j => (blobExampleRows.getD i []).getD j 0⟩

/-- C5: on the scenario map, the raw candidates are exactly the two isolated
pixels and the three blob pixels, and picker returns exactly one coordinate:
the maximum-probability pixel (2,2) of the blob; both isolated single-pixel
components are discarded. -/
theorem picker_blob_scenario :
    rawCandidates exampleProbas (4/5) = [(0, 0), (0, 3), (2, 1), (2, 2), (3, 2)] ∧
    picker exampleProbas (4/5) = Except.ok (PickResult.coords [(2, 2)]) := by
  constructor
  · with_unfolding_all decide
  · with_unfolding_all decide

/-! ## Witnesses -/

def detrendExM : Mat := ⟨1, 1, fun _ _ => 5⟩

theorem detrend_poor_bins_witness :
    colSum detrendExM 0 ≤ (detrend (fun _ => 0) (fun l => l) detrendExM).2 ∧
    (detrend (fun _ => 0) (fun l => l) detrendExM).1.f 0 0 = some 1 :=
  ⟨by with_unfolding_all decide,
    (detrend_poor_bins (fun _ => 0) (fun l => l) detrendExM 0 0 rfl
      (by decide) (by decide) (by with_unfolding_all decide)).2.1⟩

def xcSig : Mat := ⟨3, 3, fun i j => (i : ℚ) + (j : ℚ)⟩

def xcKer : Mat := ⟨2, 2, fun _ _ => 1⟩

theorem xcorr2_shapes_and_border_witness :
    0 < xcKer.m ∧
    (xcorrOk xcSig xcKer false).m = xcSig.m - xcKer.m + 1 ∧
    (xcorrOk xcSig xcKer true).m = xcSig.m :=
  ⟨by decide,
    (xcorr2_shapes_and_border xcSig xcKer 1 1 (by decide) (by decide) (by decide)
      (by decide) (by decide) (by decide)).1,
    (xcorr2_shapes_and_border xcSig xcKer 1 1 (by decide) (by decide) (by decide)
      (by decide) (by decide) (by decide)).2.2.1⟩

def spkExM : Mat :=
  ⟨3, 3, fun i j => if (i = 0 ∧ j = 1) ∨ (i = 1 ∧ j = 0) then 10 else 0⟩

theorem despeckles_fixed_stats_witness :
    (1 : ℕ) < spkExM.m ∧
    ((despeckles (fun _ => 0) spkExM 10).dist 1 = diagSlice spkExM 1 ∧
     (despeckles (fun _ => 0) spkExM 10).mat.f 0 1 =
       (if despeckleCutoff (fun _ => 0) 10 (diagSlice spkExM (Nat.dist 0 1)) <
          spkExM.f 0 1 then 0 else spkExM.f 0 1)) :=
  ⟨by decide,
    despeckles_fixed_stats (fun _ => 0) spkExM 10 1 0 1 rfl (by decide) (by decide)
      (by decide)⟩

theorem despeckles_outlier_zero_witness :
    ((0, 1) ∈ (despeckles (fun _ => 0) spkExM 10).outlier) ∧
    ((despeckles (fun _ => 0) spkExM 10).mat.f 0 1 = 0 ∧
     (despeckles (fun _ => 0) spkExM 10).n_speckles =
       (despeckles (fun _ => 0) spkExM 10).outlier.length) :=
  ⟨by with_unfolding_all decide,
    despeckles_outlier_zero (fun _ => 0) spkExM 10 0 1 rfl
      (by with_unfolding_all decide) (by with_unfolding_all decide)⟩

def lowExM : Mat := ⟨2, 2, fun _ _ => 1/2⟩

theorem picker_na_sentinel_witness :
    (∀ i, i < lowExM.m → ∀ j, j < lowExM.n → lowExM.f i j ≤ 1) ∧
    picker lowExM (4/5) = Except.ok PickResult.NA :=
  ⟨by with_unfolding_all decide,
    (picker_na_sentinel lowExM (4/5) (by with_unfolding_all decide)
      (by with_unfolding_all decide)).1.mpr (by with_unfolding_all decide)⟩

theorem distance_law_diag_mean_witness :
    1 < dlExample.m ∧
    (distance_law dlExample).getD 1 0 =
      (∑ i in Finset.Ico 1 dlExample.m, dlExample.f i (i - 1)) /
        ((dlExample.m : ℚ) - (1 : ℚ)) :=
  ⟨by decide, (distance_law_diag_mean dlExample 1 (by decide)).1⟩

def idExM : Mat := ⟨2, 2, fun i j => if i = j then 1 else 0⟩

theorem scn_func_exact_fixed_point_witness :
    (∀ i, i < idExM.m → 0 < rowSumFull idExM i →
      activeRowSum idExM (scnActive idExM 0) i = 1) ∧
    (scn_func idExM 0).f 0 0 = idExM.f 0 0 :=
  ⟨by with_unfolding_all decide,
    scn_func_exact_fixed_point idExM 0 0 (by decide) (by decide)
      (by with_unfolding_all decide) (by with_unfolding_all decide)
      (by with_unfolding_all decide) (by with_unfolding_all decide)⟩

theorem picker_coords_exceed_witness :
    ((2, 2) ∈ [((2 : ℕ), (2 : ℕ))]) ∧
    (2 < exampleProbas.m ∧ 2 < exampleProbas.n ∧ (4/5 : ℚ) < exampleProbas.f 2 2) :=
  ⟨by decide,
    picker_coords_exceed exampleProbas (4/5) [(2, 2)] 2 2
      (by with_unfolding_all decide) (by decide)⟩

theorem input_contract_errors_witness :
    ((∃ e, xcorr2 xcSig xcKer true = Except.error e) ↔
      (xcSig.m < xcKer.m ∨ xcSig.n < xcKer.n)) ∧
    ((∃ e, picker lowExM (4/5) = Except.error e) ↔
      ((∃ i, i < lowExM.m ∧ ∃ j, j < lowExM.n ∧ 1 < lowExM.f i j) ∨
       (∃ i, i < lowExM.m ∧ ∃ j, j < lowExM.n ∧ lowExM.f i j < 0))) :=
  input_contract_errors xcSig xcKer true lowExM (4/5)
